import Mathlib

/-
Verification of the outline-decomposition layer of python_freetype.

The development shallowly embeds, over exact rationals:
  * the `Vector` arithmetic class of freetype2.py (add, sub, scalar mul/div,
    and the f26.6 fixed-point conversion used by the outline code);
  * the `Outline.contours` property of freetype2.py (the explicit
    contour-walking loop over the raw FT.Outline arrays, including its
    IndexError on running off the end of the point array);
  * the segment-consuming wrapper callbacks of `Outline.decompose`
    (wrap_move_to / wrap_line_to / wrap_conic_to / wrap_cubic_to), which keep
    the `pos0` state and perform the quadratic-to-cubic degree raising when
    the consumer has no conic callback;
  * a driver for FT_Outline_Decompose, which lives in the native FreeType
    library and not in this repository, modelled from the spec.

Machine integers of the C layer are Nat with explicit bounds where they
matter (tags are unsigned bytes); coordinates are Rat.
-/

set_option autoImplicit false

namespace PyFT

/-- Pythonic Vector of freetype2.py: a pair of coordinates.  The Python class
holds floats; we embed coordinates as exact rationals. -/
structure Vector where
  x : ℚ
  y : ℚ
deriving DecidableEq, Repr

/-- Componentwise addition, from Vector.__add__. -/
def Vector.add (a b : Vector) : Vector := ⟨a.x + b.x, a.y + b.y⟩

/-- Componentwise subtraction, from Vector.__sub__. -/
def Vector.sub (a b : Vector) : Vector := ⟨a.x - b.x, a.y - b.y⟩

/-- Scalar multiplication, from Vector.__mul__ / __rmul__ with a Real factor. -/
def Vector.smul (f : ℚ) (v : Vector) : Vector := ⟨v.x * f, v.y * f⟩

/-- Division by a scalar, from Vector.__truediv__ with a Real factor. -/
def Vector.divs (v : Vector) (f : ℚ) : Vector := ⟨v.x / f, v.y / f⟩

instance : Add Vector := ⟨Vector.add⟩

instance : Sub Vector := ⟨Vector.sub⟩

instance : HMul ℚ Vector Vector := ⟨Vector.smul⟩

instance : HDiv Vector ℚ Vector := ⟨Vector.divs⟩

theorem Vector.eq_of (a b : Vector) (hx : a.x = b.x) (hy : a.y = b.y) : a = b := by
  cases a; cases b; cases hx; cases hy; rfl

@[simp] theorem Vector.add_def (a b : Vector) : a + b = ⟨a.x + b.x, a.y + b.y⟩ := rfl

@[simp] theorem Vector.sub_def (a b : Vector) : a - b = ⟨a.x - b.x, a.y - b.y⟩ := rfl

@[simp] theorem Vector.smul_def (f : ℚ) (v : Vector) : f * v = ⟨v.x * f, v.y * f⟩ := rfl

@[simp] theorem Vector.divs_def (v : Vector) (f : ℚ) : v / f = ⟨v.x / f, v.y / f⟩ := rfl

/-- Raw FT.Vector as stored in the outline: a pair of FT_Pos integers. -/
structure FTVector where
  x : ℤ
  y : ℤ
deriving DecidableEq, Repr

/-- Vector.from_ft_f26_6: converts an FT.Vector in 26.6 fixed point to a
Pythonic Vector by dividing each coordinate by 64. -/
def Vector.from_ft_f26_6 (v : FTVector) : Vector := ⟨(v.x : ℚ) / 64, (v.y : ℚ) / 64⟩

/-- Raw FT.Outline record: counts plus the points, tags and contour-endpoint
arrays.  The C arrays are embedded as total functions from indices, matching
pointer indexing; `tags` entries are read through a c_ubyte pointer, so a real
outline always has `tags i < 256`. -/
structure FTOutline where
  n_contours : ℕ
  n_points : ℕ
  points : ℕ → FTVector
  tags : ℕ → ℕ
  contours : ℕ → ℕ

/-- One element of the tuple built by the Outline.contours property:
(Vector.from_ft_f26_6 point, flag & 3, flag >> 32). -/
def contourEntry (o : FTOutline) (i : ℕ) : Vector × ℕ × ℕ :=
  (Vector.from_ft_f26_6 (o.points i), o.tags i % 4, o.tags i / 2 ^ 32)

/-- The IndexError message raised by Outline.contours. -/
def runOffMsg : String := "contour point index has run off the end"

/-- The inner while-loop of Outline.contours: starting at `pointindex`, append
entries until `endpoint` is reached; raise IndexError when the point index
reaches n_points first.  Returns the contour entries together with the point
index at which the loop broke (the Python code does not advance past the
endpoint before starting the next contour). -/
def walkContour (o : FTOutline) (endpoint pointindex : ℕ) :
    Except String (List (Vector × ℕ × ℕ) × ℕ) :=
  if _h : o.n_points ≤ pointindex then
    .error runOffMsg
  else if pointindex = endpoint then
    .ok ([contourEntry o pointindex], pointindex)
  else
    match walkContour o endpoint (pointindex + 1) with
    | .error e => .error e
    | .ok (rest, pi) => .ok (contourEntry o pointindex :: rest, pi)
termination_by o.n_points - pointindex
decreasing_by omega

/-- The outer for-loop of Outline.contours over the contour endpoints,
threading the point index from one contour to the next. -/
def contoursFrom (o : FTOutline) :
    List ℕ → ℕ → Except String (List (List (Vector × ℕ × ℕ)))
  | [], _ => .ok []
  | e :: rest, pointindex =>
    match walkContour o e pointindex with
    | .error s => .error s
    | .ok (c, pi) =>
      match contoursFrom o rest pi with
      | .error s => .error s
      | .ok cs => .ok (c :: cs)

/-- The Outline.contours property of freetype2.py: walk every contour of the
outline starting from point index 0. -/
def FTOutline.contoursProp (o : FTOutline) : Except String (List (List (Vector × ℕ × ℕ))) :=
  contoursFrom o ((List.range o.n_contours).map o.contours) 0

/-- Classification of a control point, from the spec's ControlPointKind
(CURVEPT_ON / CURVEPT_OFF2 / CURVEPT_OFF3 in the source). -/
inductive ControlPointKind where
  | OnCurve
  | OffCurveQuadratic
  | OffCurveCubic
deriving DecidableEq, Repr

/-- A segment event delivered by the native FT_Outline_Decompose driver to the
wrapper callbacks of Outline.decompose: move_to, line_to, conic_to (one
off-curve control point and the segment endpoint) or cubic_to. -/
inductive SegEvent where
  | move (p : Vector)
  | line (p : Vector)
  | conic (q p : Vector)
  | cubic (c1 c2 p : Vector)
deriving DecidableEq, Repr

/-- A path-construction command received by the consumer of
Outline.decompose, one per callback invocation. -/
inductive PathCommand where
  | moveTo (p : Vector)
  | lineTo (p : Vector)
  | conicTo (q p : Vector)
  | cubicTo (c1 c2 p : Vector)
deriving DecidableEq, Repr

/-- Modelled from the spec: the implied on-curve point synthesized between two
consecutive quadratic off-curve points is their midpoint. -/
def midpointV (a b : Vector) : Vector := ⟨(a.x + b.x) / 2, (a.y + b.y) / 2⟩

/-- The MalformedOutline error signalled by the decomposition driver. -/
def malformedMsg : String := "MalformedOutline"

/-- Modelled from the spec: the point-walking loop of FT_Outline_Decompose
(native FreeType code, not part of this repository).  The input list is the
remaining points of one contour, already wrapped around to the contour's
first point; each step emits the segment events of the spec:
an on-curve point yields a line; a quadratic off-curve point followed by an
on-curve point yields a conic segment; two consecutive quadratic off-curve
points synthesize the implied on-curve midpoint and continue from it; two
cubic off-curve points followed by an on-curve point yield a cubic segment;
anything else is a malformed outline. -/
def walkSegs : List (Vector × ControlPointKind) → Except String (List SegEvent)
  | [] => .ok []
  | (p, .OnCurve) :: rest =>
    match walkSegs rest with
    | .error e => .error e
    | .ok evs => .ok (.line p :: evs)
  | (q, .OffCurveQuadratic) :: (p, .OnCurve) :: rest =>
    match walkSegs rest with
    | .error e => .error e
    | .ok evs => .ok (.conic q p :: evs)
  | (q1, .OffCurveQuadratic) :: (q2, .OffCurveQuadratic) :: rest =>
    match walkSegs ((q2, .OffCurveQuadratic) :: rest) with
    | .error e => .error e
    | .ok evs => .ok (.conic q1 (midpointV q1 q2) :: evs)
  | (c1, .OffCurveCubic) :: (c2, .OffCurveCubic) :: (p, .OnCurve) :: rest =>
    match walkSegs rest with
    | .error e => .error e
    | .ok evs => .ok (.cubic c1 c2 p :: evs)
  | _ => .error malformedMsg
termination_by l => l.length

/-- Modelled from the spec: decomposition of one contour.  A contour with zero
points is a malformed-outline error; otherwise a move to the first point is
delivered and the remaining points are walked, wrapping back to the first
point to close the loop. -/
def decomposeContour (c : List (Vector × ControlPointKind)) : Except String (List SegEvent) :=
  match c with
  | [] => .error malformedMsg
  | (p0, k0) :: rest =>
    match walkSegs (rest ++ [(p0, k0)]) with
    | .error e => .error e
    | .ok evs => .ok (.move p0 :: evs)

/-- Modelled from the spec: the segment events delivered for a whole outline,
contour by contour. -/
def decomposeEvents : List (List (Vector × ControlPointKind)) → Except String (List SegEvent)
  | [] => .ok []
  | c :: rest =>
    match decomposeContour c with
    | .error e => .error e
    | .ok evs =>
      match decomposeEvents rest with
      | .error e => .error e
      | .ok evs2 => .ok (evs ++ evs2)

/-- First cubic control point computed by wrap_conic_to when conic_to is None:
pos0 + 2 * (midpos - pos0) / 3. -/
def conicCtrl1 (pos0 midpos : Vector) : Vector := pos0 + ((2 : ℚ) * (midpos - pos0)) / (3 : ℚ)

/-- Second cubic control point computed by wrap_conic_to when conic_to is None:
pos3 + 2 * (midpos - pos3) / 3. -/
def conicCtrl2 (pos3 midpos : Vector) : Vector := pos3 + ((2 : ℚ) * (midpos - pos3)) / (3 : ℚ)

/-- One wrapper callback invocation of Outline.decompose in freetype2.py,
translated from wrap_move_to / wrap_line_to / wrap_conic_to / wrap_cubic_to.
`conicSupported` is whether the caller passed a conic_to action; `pos0` is the
nonlocal state of the wrappers (None before the first move when conic_to is
None).  Returns the command passed on to the caller's actions and the new
pos0.  Faithful to the source: wrap_conic_to sets pos0 to the second computed
control point, and wrap_cubic_to leaves pos0 unchanged; using pos0 while it is
still None is the Python TypeError. -/
def wrapStep (conicSupported : Bool) (pos0 : Option Vector) :
    SegEvent → Except String (PathCommand × Option Vector)
  | .move p => .ok (.moveTo p, if conicSupported then pos0 else some p)
  | .line p => .ok (.lineTo p, if conicSupported then pos0 else some p)
  | .conic midpos pos3 =>
    if conicSupported then
      .ok (.conicTo midpos pos3, pos0)
    else
      match pos0 with
      | none => .error "TypeError"
      | some s => .ok (.cubicTo (conicCtrl1 s midpos) (conicCtrl2 pos3 midpos) pos3,
          some (conicCtrl2 pos3 midpos))
  | .cubic c1 c2 p => .ok (.cubicTo c1 c2 p, pos0)

/-- Folds wrapStep over a list of segment events, collecting the emitted
commands and the final pos0. -/
def wrapRun (conicSupported : Bool) (pos0 : Option Vector) :
    List SegEvent → Except String (List PathCommand × Option Vector)
  | [] => .ok ([], pos0)
  | ev :: rest =>
    match wrapStep conicSupported pos0 ev with
    | .error e => .error e
    | .ok (cmd, st) =>
      match wrapRun conicSupported st rest with
      | .error e => .error e
      | .ok (cmds, st2) => .ok (cmd :: cmds, st2)

/-- Outline.decompose of freetype2.py starting from a given initial pos0
state: the native driver's events are fed through the wrapper callbacks. -/
def decomposeFrom (conicSupported : Bool) (pos0 : Option Vector)
    (outline : List (List (Vector × ControlPointKind))) : Except String (List PathCommand) :=
  match decomposeEvents outline with
  | .error e => .error e
  | .ok evs =>
    match wrapRun conicSupported pos0 evs with
    | .error e => .error e
    | .ok (cmds, _) => .ok cmds

/-- Outline.decompose of freetype2.py: each call initializes pos0 = None. -/
def decompose (conicSupported : Bool)
    (outline : List (List (Vector × ControlPointKind))) : Except String (List PathCommand) :=
  decomposeFrom conicSupported none outline

/-- Quadratic Bezier point at parameter t with endpoints s, p and control q. -/
def quadPoint (s q p : Vector) (t : ℚ) : Vector :=
  ((1 - t) ^ 2) * s + (2 * (1 - t) * t) * q + (t ^ 2) * p

/-- Cubic Bezier point at parameter t with endpoints s, p and controls c1, c2. -/
def cubicPoint (s c1 c2 p : Vector) (t : ℚ) : Vector :=
  ((1 - t) ^ 3) * s + (3 * (1 - t) ^ 2 * t) * c1 + (3 * (1 - t) * t ^ 2) * c2 + (t ^ 3) * p

/-- C1: during Outline.decompose, a quadratic segment with tracked current
point S, control Q and endpoint P is passed through unchanged as a native
quadratic command when the consumer supports quadratics, and otherwise
cubic_to is invoked with the degree-raised control points
C1 = S + (2/3)(Q - S) and C2 = P + (2/3)(Q - P) and endpoint P. -/
theorem conic_segment_handling (st : Option Vector) (S Q P : Vector) :
    wrapStep true st (SegEvent.conic Q P) = .ok (PathCommand.conicTo Q P, st) ∧
    Except.map Prod.fst (wrapStep false (some S) (SegEvent.conic Q P)) =
      .ok (PathCommand.cubicTo (S + ((2 : ℚ) / 3) * (Q - S)) (P + ((2 : ℚ) / 3) * (Q - P)) P) := by
  constructor
  · rfl
  · simp only [wrapStep, Except.map, conicCtrl1, conicCtrl2]
    refine congrArg Except.ok ?_
    have h1 : S + ((2 : ℚ) * (Q - S)) / (3 : ℚ) = S + ((2 : ℚ) / 3) * (Q - S) := by
      apply Vector.eq_of <;> simp <;> ring
    have h2 : P + ((2 : ℚ) * (Q - P)) / (3 : ℚ) = P + ((2 : ℚ) / 3) * (Q - P) := by
      apply Vector.eq_of <;> simp <;> ring
    rw [h1, h2]

/-- C5: the cubic segment emitted for a converted quadratic segment is
pointwise equal, over the rationals, to the original quadratic Bezier:
the commands agree at every parameter t. -/
theorem degree_raised_cubic_pointwise (S Q P : Vector) (t : ℚ) :
    wrapStep false (some S) (SegEvent.conic Q P) =
      .ok (PathCommand.cubicTo (conicCtrl1 S Q) (conicCtrl2 P Q) P, some (conicCtrl2 P Q)) ∧
    cubicPoint S (conicCtrl1 S Q) (conicCtrl2 P Q) P t = quadPoint S Q P t := by
  refine ⟨rfl, ?_⟩
  apply Vector.eq_of <;>
    simp [cubicPoint, quadPoint, conicCtrl1, conicCtrl2] <;> ring

/-- C2 counterexample evidence: after a quadratic segment converted to a
cubic, the wrapper's tracked pos0 is the second cubic control point (14/3,
10/3), not the segment endpoint (6, 2); and after a native cubic segment the
wrapper leaves pos0 unchanged, so it is not the cubic's endpoint either. -/
theorem pos0_tracking_bug :
    (wrapStep false (some ⟨0, 0⟩) (SegEvent.conic ⟨4, 4⟩ ⟨6, 2⟩) =
        .ok (PathCommand.cubicTo ⟨8/3, 8/3⟩ ⟨14/3, 10/3⟩ ⟨6, 2⟩, some ⟨14/3, 10/3⟩) ∧
      (Vector.mk (14/3) (10/3) ≠ ⟨6, 2⟩)) ∧
    (wrapStep false (some ⟨9, 9⟩) (SegEvent.cubic ⟨1, 1⟩ ⟨2, 2⟩ ⟨3, 3⟩) =
        .ok (PathCommand.cubicTo ⟨1, 1⟩ ⟨2, 2⟩ ⟨3, 3⟩, some ⟨9, 9⟩) ∧
      (Vector.mk 9 9 ≠ ⟨3, 3⟩)) := by
  refine ⟨⟨?_, ?_⟩, rfl, ?_⟩
  · simp only [wrapStep, conicCtrl1, conicCtrl2, Vector.add_def, Vector.sub_def, Vector.smul_def,
      Vector.divs_def]
    norm_num
  · simp only [ne_eq, Vector.mk.injEq, not_and]
    norm_num
  · simp only [ne_eq, Vector.mk.injEq, not_and]
    norm_num

/-- C4 evidence: on the contour On(0,0), Quad(4,4), Quad(8,0), On(12,0) the
driver synthesizes the implied on-curve midpoint (6,2) and two cubic segments
are emitted, but the second cubic is degree-raised from the stale pos0 left by
the first conversion, giving first control point (62/9, 10/9) instead of the
value M + (2/3)(Q2 - M) = (22/3, 2/3) degree-raised from the midpoint. -/
theorem decompose_two_quads_eval :
    decompose false [[(⟨0, 0⟩, ControlPointKind.OnCurve),
        (⟨4, 4⟩, ControlPointKind.OffCurveQuadratic),
        (⟨8, 0⟩, ControlPointKind.OffCurveQuadratic),
        (⟨12, 0⟩, ControlPointKind.OnCurve)]] =
      .ok [PathCommand.moveTo ⟨0, 0⟩,
        PathCommand.cubicTo ⟨8/3, 8/3⟩ ⟨14/3, 10/3⟩ ⟨6, 2⟩,
        PathCommand.cubicTo ⟨62/9, 10/9⟩ ⟨28/3, 0⟩ ⟨12, 0⟩,
        PathCommand.lineTo ⟨0, 0⟩] ∧
    Vector.mk (62/9) (10/9) ≠ conicCtrl1 ⟨6, 2⟩ ⟨8, 0⟩ := by
  constructor
  · simp only [decompose, decomposeFrom, decomposeEvents, decomposeContour, walkSegs, midpointV,
      wrapRun, wrapStep, conicCtrl1, conicCtrl2, Vector.add_def, Vector.sub_def, Vector.smul_def,
      Vector.divs_def, List.cons_append, List.nil_append]
    norm_num
  · simp only [conicCtrl1, Vector.add_def, Vector.sub_def, Vector.smul_def, Vector.divs_def,
      ne_eq, Vector.mk.injEq, not_and]
    norm_num

theorem walkSegs_allOn (l : List Vector) :
    walkSegs (l.map (fun p => (p, ControlPointKind.OnCurve))) = .ok (l.map SegEvent.line) := by
  induction l with
  | nil => simp [walkSegs]
  | cons p rest ih => simp [walkSegs, ih]

theorem wrapRun_lines (b : Bool) (st : Option Vector) (l : List Vector) :
    ∃ st2, wrapRun b st (l.map SegEvent.line) = .ok (l.map PathCommand.lineTo, st2) := by
  induction l generalizing st with
  | nil => exact ⟨st, rfl⟩
  | cons p rest ih =>
    obtain ⟨st2, h⟩ := ih (if b then st else some p)
    exact ⟨st2, by simp [wrapRun, wrapStep, h]⟩

/-- C6: for a single contour whose points are all on-curve, decompose emits
exactly one MoveTo of the first point, then one LineTo per remaining point in
order, then one closing LineTo back to the first point, and nothing else (in
particular no explicit close command exists in the emitted language). -/
theorem decompose_all_on_curve (b : Bool) (p0 : Vector) (ps : List Vector) :
    decompose b
        [(p0, ControlPointKind.OnCurve) :: ps.map (fun p => (p, ControlPointKind.OnCurve))] =
      .ok (PathCommand.moveTo p0 :: (ps.map PathCommand.lineTo ++ [PathCommand.lineTo p0])) := by
  have hmap : ps.map (fun p => (p, ControlPointKind.OnCurve)) ++ [(p0, ControlPointKind.OnCurve)]
      = (ps ++ [p0]).map (fun p => (p, ControlPointKind.OnCurve)) := by
    simp
  have hwalk := walkSegs_allOn (ps ++ [p0])
  obtain ⟨st2, hrun⟩ := wrapRun_lines b (if b then none else some p0) (ps ++ [p0])
  unfold decompose decomposeFrom
  have hev : decomposeEvents
      [(p0, ControlPointKind.OnCurve) :: ps.map (fun p => (p, ControlPointKind.OnCurve))] =
      .ok (SegEvent.move p0 :: (ps ++ [p0]).map SegEvent.line) := by
    simp only [decomposeEvents, decomposeContour, hmap, hwalk, List.append_nil]
  rw [hev]
  have hwrap : wrapRun b none (SegEvent.move p0 :: (ps ++ [p0]).map SegEvent.line) =
      .ok (PathCommand.moveTo p0 :: (ps ++ [p0]).map PathCommand.lineTo, st2) := by
    simp only [wrapRun, wrapStep]
    rw [hrun]
  dsimp only
  rw [hwrap]
  simp

/-- The command passed through by a wrapper callback when every consumer
action is present: each segment event maps to its own command kind. -/
def passthrough : SegEvent → PathCommand
  | .move p => .moveTo p
  | .line p => .lineTo p
  | .conic q p => .conicTo q p
  | .cubic c1 c2 p => .cubicTo c1 c2 p

theorem wrapStep_conicSupported (st : Option Vector) (ev : SegEvent) :
    wrapStep true st ev = .ok (passthrough ev, st) := by
  cases ev <;> rfl

theorem wrapRun_conicSupported (st : Option Vector) (l : List SegEvent) :
    wrapRun true st l = .ok (l.map passthrough, st) := by
  induction l generalizing st with
  | nil => rfl
  | cons ev rest ih => simp [wrapRun, wrapStep_conicSupported, ih]

theorem decomposeEvents_shape (o : List (List (Vector × ControlPointKind)))
    (evs : List SegEvent) (h : decomposeEvents o = .ok evs) :
    evs = [] ∨ ∃ p rest, evs = SegEvent.move p :: rest := by
  match o with
  | [] =>
    left
    simpa [decomposeEvents] using h.symm
  | c :: crest =>
    right
    match c with
    | [] => simp [decomposeEvents, decomposeContour] at h
    | (p0, k0) :: cr =>
      simp only [decomposeEvents, decomposeContour] at h
      rcases hw : walkSegs (cr ++ [(p0, k0)]) with e | evs1 <;> rw [hw] at h
      · simp at h
      · rcases hr : decomposeEvents crest with e | evs2 <;> rw [hr] at h
        · simp at h
        · exact ⟨p0, evs1 ++ evs2, by simpa using h.symm⟩

/-- C7: Outline.decompose carries no hidden mutable state between calls: the
wrapper state pos0 is re-initialized on every call, and even if a previous
call's final pos0 were carried into the next call (decomposeFrom), the
emitted command sequence would be unchanged, so two decompositions of the
same outline produce identical command sequences. -/
theorem decompose_stateless (b : Bool) (st : Option Vector)
    (o : List (List (Vector × ControlPointKind))) :
    decomposeFrom b st o = decompose b o := by
  unfold decompose decomposeFrom
  rcases hev : decomposeEvents o with e | evs
  · rfl
  · rcases b with _ | _
    · rcases decomposeEvents_shape o evs hev with h0 | ⟨p, rest, h0⟩ <;> subst h0
      · rfl
      · simp [wrapRun, wrapStep]
    · simp [wrapRun_conicSupported]

/-- The state visible to one decomposition pass: the outline being read and
the path commands delivered to the consumer so far. -/
structure GlyphState where
  outline : List (List (Vector × ControlPointKind))
  path : List PathCommand

/-- State-passing run of the wrapper callbacks: each delivered segment event
appends one command to the consumer's path; an error keeps the state reached
so far (an exception aborts the remaining callbacks without touching the
outline). -/
def runEvents (b : Bool) (g : GlyphState) (pos0 : Option Vector) :
    List SegEvent → GlyphState × Option Vector × Option String
  | [] => (g, pos0, none)
  | ev :: rest =>
    match wrapStep b pos0 ev with
    | .error e => (g, pos0, some e)
    | .ok (cmd, st) => runEvents b { g with path := g.path ++ [cmd] } st rest

/-- Outline.decompose as a transform on the full glyph state. -/
def decomposeState (b : Bool) (g : GlyphState) : GlyphState × Option String :=
  match decomposeEvents g.outline with
  | .error e => (g, some e)
  | .ok evs => ((runEvents b g none evs).1, (runEvents b g none evs).2.2)

theorem runEvents_outline (b : Bool) (l : List SegEvent) (g : GlyphState)
    (pos0 : Option Vector) : (runEvents b g pos0 l).1.outline = g.outline := by
  induction l generalizing g pos0 with
  | nil => rfl
  | cons ev rest ih =>
    simp only [runEvents]
    rcases wrapStep b pos0 ev with e | ⟨cmd, st⟩
    · rfl
    · exact ih _ _

theorem runEvents_path (b : Bool) (l : List SegEvent) (g : GlyphState) (pos0 st2 : Option Vector)
    (cmds : List PathCommand) (h : wrapRun b pos0 l = .ok (cmds, st2)) :
    runEvents b g pos0 l = ({ g with path := g.path ++ cmds }, st2, none) := by
  induction l generalizing g pos0 cmds with
  | nil =>
    simp only [wrapRun, Except.ok.injEq, Prod.mk.injEq] at h
    obtain ⟨h1, h2⟩ := h
    subst h1 h2
    simp [runEvents]
  | cons ev rest ih =>
    simp only [wrapRun] at h
    rcases hs : wrapStep b pos0 ev with e | ⟨cmd, st⟩ <;> rw [hs] at h <;> dsimp only at h
    · simp at h
    · rcases hr : wrapRun b st rest with e | ⟨cmds1, st1⟩ <;> rw [hr] at h <;> dsimp only at h
      · simp at h
      · simp only [Except.ok.injEq, Prod.mk.injEq] at h
        obtain ⟨h1, h2⟩ := h
        subst h1 h2
        simp only [runEvents]
        rw [hs]
        dsimp only
        rw [ih _ _ _ hr]
        simp

/-- C8: Outline.decompose never mutates the outline it reads: whether the
state-passing decomposition finishes normally or signals an error, the
outline component of the state is unchanged; only the consumer's path grows. -/
theorem decompose_preserves_outline (b : Bool) (g : GlyphState) :
    (decomposeState b g).1.outline = g.outline := by
  unfold decomposeState
  rcases decomposeEvents g.outline with e | evs
  · rfl
  · exact runEvents_outline ..

theorem walkContour_error_msg (o : FTOutline) (e pi : ℕ) (s : String)
    (h : walkContour o e pi = .error s) : s = runOffMsg := by
  unfold walkContour at h
  split at h
  · exact (Except.error.inj h).symm
  · rename_i hnp
    split at h
    · simp at h
    · rcases hr : walkContour o e (pi + 1) with e1 | r <;> rw [hr] at h <;> dsimp only at h
      · exact (Except.error.inj h) ▸ walkContour_error_msg o e (pi + 1) e1 hr
      · simp at h
termination_by o.n_points - pi
decreasing_by omega

theorem walkContour_ok (o : FTOutline) (e pi : ℕ) (c : List (Vector × ℕ × ℕ)) (pi2 : ℕ)
    (h : walkContour o e pi = .ok (c, pi2)) :
    pi ≤ e ∧ e < o.n_points ∧ pi2 = e ∧
      c = (List.range' pi (e + 1 - pi)).map (contourEntry o) := by
  unfold walkContour at h
  split at h
  · simp at h
  · rename_i hnp
    split at h
    · rename_i hpe
      simp only [Except.ok.injEq, Prod.mk.injEq] at h
      obtain ⟨h1, h2⟩ := h
      subst hpe h2 h1
      refine ⟨le_refl _, by omega, rfl, ?_⟩
      simp [List.range'_succ]
    · rename_i hpe
      rcases hr : walkContour o e (pi + 1) with e1 | ⟨rest, pi1⟩ <;> rw [hr] at h <;>
        dsimp only at h
      · simp at h
      · simp only [Except.ok.injEq, Prod.mk.injEq] at h
        obtain ⟨h1, h2⟩ := h
        obtain ⟨ih1, ih2, ih3, ih4⟩ := walkContour_ok o e (pi + 1) rest pi1 hr
        subst h1 h2
        refine ⟨by omega, ih2, ih3, ?_⟩
        rw [ih4]
        rw [show e + 1 - pi = (e - pi) + 1 by omega, List.range'_succ]
        simp only [List.map_cons, List.cons.injEq, true_and]
        rw [show e + 1 - (pi + 1) = e - pi by omega]
termination_by o.n_points - pi
decreasing_by omega

theorem contoursFrom_error_msg (o : FTOutline) (eps : List ℕ) :
    ∀ (pi : ℕ) (s : String), contoursFrom o eps pi = .error s → s = runOffMsg := by
  induction eps with
  | nil => intro pi s h; simp [contoursFrom] at h
  | cons e0 rest ih =>
    intro pi s h
    simp only [contoursFrom] at h
    rcases hw : walkContour o e0 pi with e1 | ⟨c, pi2⟩ <;> rw [hw] at h <;> dsimp only at h
    · exact (Except.error.inj h) ▸ walkContour_error_msg o e0 pi e1 hw
    · rcases hr : contoursFrom o rest pi2 with e1 | cs <;> rw [hr] at h <;> dsimp only at h
      · exact (Except.error.inj h) ▸ ih pi2 e1 hr
      · simp at h

theorem contoursFrom_ok_endpoints (o : FTOutline) (eps : List ℕ) :
    ∀ (pi : ℕ) (cs : List (List (Vector × ℕ × ℕ))), contoursFrom o eps pi = .ok cs →
      ∀ e ∈ eps, e < o.n_points := by
  induction eps with
  | nil => simp
  | cons e0 rest ih =>
    intro pi cs h e he
    simp only [contoursFrom] at h
    rcases hw : walkContour o e0 pi with e1 | ⟨c, pi2⟩ <;> rw [hw] at h <;> dsimp only at h
    · simp at h
    · rcases hr : contoursFrom o rest pi2 with e1 | cs1 <;> rw [hr] at h <;> dsimp only at h
      · simp at h
      · rcases List.mem_cons.mp he with rfl | hmem
        · exact (walkContour_ok o e pi c pi2 hw).2.1
        · exact ih pi2 cs1 hr e hmem

/-- C3: whenever the declared contour endpoints are inconsistent with the
declared point count — in particular an outline with at least one contour
whose declared endpoint lies at or past n_points, which covers every outline
with a contour but zero points — the contour walk raises the IndexError and
produces no contour list at all: nothing is silently truncated. -/
theorem contours_runoff_error (o : FTOutline) (i : ℕ)
    (hi : i < o.n_contours) (he : o.n_points ≤ o.contours i) :
    o.contoursProp = .error runOffMsg ∧ ∀ cs, o.contoursProp ≠ .ok cs := by
  have hmem : o.contours i ∈ (List.range o.n_contours).map o.contours :=
    List.mem_map_of_mem o.contours (List.mem_range.mpr hi)
  have hok : ∀ cs, o.contoursProp ≠ .ok cs := by
    intro cs hcs
    have := contoursFrom_ok_endpoints o _ 0 cs hcs (o.contours i) hmem
    omega
  refine ⟨?_, hok⟩
  rcases hres : o.contoursProp with s | cs
  · have hs := contoursFrom_error_msg o _ 0 s hres
    rw [hs]
  · exact absurd hres (hok cs)

/-- A one-contour outline with zero points, the minimal inconsistent input. -/
def zeroPointOutline : FTOutline := ⟨1, 0, fun _ => ⟨0, 0⟩, fun _ => 0, fun _ => 0⟩

theorem contours_runoff_error_witness :
    0 < zeroPointOutline.n_contours ∧ zeroPointOutline.n_points ≤ zeroPointOutline.contours 0 ∧
      zeroPointOutline.contoursProp = .error runOffMsg :=
  ⟨by decide, by decide,
    (contours_runoff_error zeroPointOutline 0 (by decide) (by decide)).1⟩

/-- Start index of the j-th contour walked by contoursFrom: the initial point
index for the first contour, and the previous declared endpoint afterwards. -/
def startIdx (pi : ℕ) (eps : List ℕ) : ℕ → ℕ
  | 0 => pi
  | j + 1 => eps.getD j 0

theorem contoursFrom_ok_spec (o : FTOutline) (eps : List ℕ) :
    ∀ (pi : ℕ) (cs : List (List (Vector × ℕ × ℕ))), contoursFrom o eps pi = .ok cs →
      cs.length = eps.length ∧
      ∀ j, j < eps.length →
        startIdx pi eps j ≤ eps.getD j 0 ∧ eps.getD j 0 < o.n_points ∧
        cs.getD j [] =
          (List.range' (startIdx pi eps j) (eps.getD j 0 + 1 - startIdx pi eps j)).map
            (contourEntry o) := by
  induction eps with
  | nil =>
    intro pi cs h
    simp only [contoursFrom, Except.ok.injEq] at h
    subst h
    simp
  | cons e0 rest ih =>
    intro pi cs h
    simp only [contoursFrom] at h
    rcases hw : walkContour o e0 pi with e1 | ⟨c, pi2⟩ <;> rw [hw] at h <;> dsimp only at h
    · simp at h
    · rcases hr : contoursFrom o rest pi2 with e1 | cs1 <;> rw [hr] at h <;> dsimp only at h
      · simp at h
      · obtain rfl : c :: cs1 = cs := Except.ok.inj h
        obtain ⟨hw1, hw2, hw3, hw4⟩ := walkContour_ok o e0 pi c pi2 hw
        rw [hw3] at hr
        obtain ⟨ihlen, ihspec⟩ := ih e0 cs1 hr
        refine ⟨by simp [ihlen], ?_⟩
        intro j hj
        cases j with
        | zero =>
          refine ⟨?_, ?_, ?_⟩ <;> simp [startIdx, hw1, hw2, hw4]
        | succ k =>
          have hk : k < rest.length := by simpa using hj
          have hrec := ihspec k hk
          have hstart : startIdx e0 rest k = (e0 :: rest).getD k 0 := by
            cases k <;> simp [startIdx]
          simp only [startIdx, List.getD_cons_succ]
          rw [← hstart]
          exact hrec

/-- C9: in a successfully walked outline, each contour after the first starts
at the previous contour's declared endpoint: the returned contour list has one
entry per declared contour, the first element of contour i+1 is the point at
index contours[i], which is also the last element of contour i, and contour
i+1 holds contours[i+1] - contours[i] + 1 points. -/
theorem contours_adjacent_overlap (o : FTOutline) (cs : List (List (Vector × ℕ × ℕ))) (i : ℕ)
    (h : o.contoursProp = .ok cs) (hi : i + 1 < o.n_contours) :
    cs.length = o.n_contours ∧
    (cs.getD (i + 1) []).head? = some (contourEntry o (o.contours i)) ∧
    (cs.getD i []).getLast? = some (contourEntry o (o.contours i)) ∧
    (cs.getD (i + 1) []).length = o.contours (i + 1) - o.contours i + 1 := by
  obtain ⟨hlen, hspec⟩ := contoursFrom_ok_spec o ((List.range o.n_contours).map o.contours) 0 cs h
  have hgetD : ∀ j, j < o.n_contours →
      ((List.range o.n_contours).map o.contours).getD j 0 = o.contours j := by
    intro j hj
    simp [List.getD_eq_getElem?_getD, List.getElem?_map, List.getElem?_range, hj]
  have hlen2 : ((List.range o.n_contours).map o.contours).length = o.n_contours := by simp
  have hsucc := hspec (i + 1) (by rw [hlen2]; omega)
  have hcur := hspec i (by rw [hlen2]; omega)
  have hstartsucc : startIdx 0 ((List.range o.n_contours).map o.contours) (i + 1) =
      o.contours i := by
    simp only [startIdx]
    exact hgetD i (by omega)
  rw [hstartsucc, hgetD (i + 1) hi] at hsucc
  rw [hgetD i (by omega)] at hcur
  obtain ⟨hmono, hlt, hsval⟩ := hsucc
  obtain ⟨hcur1, hcur2, hcval⟩ := hcur
  refine ⟨by rw [hlen, hlen2], ?_, ?_, ?_⟩
  · rw [hsval, show o.contours (i + 1) + 1 - o.contours i = (o.contours (i + 1) - o.contours i) + 1
      by omega, List.range'_succ]
    simp
  · rw [hcval]
    set s := startIdx 0 ((List.range o.n_contours).map o.contours) i with hs
    rw [show o.contours i + 1 - s = (o.contours i - s) + 1 by omega, List.range'_concat]
    rw [List.map_append]
    simp only [List.map_cons, List.map_nil]
    rw [List.getLast?_concat]
    simp only [Option.some.injEq]
    rw [show s + 1 * (o.contours i - s) = o.contours i by omega]
  · rw [hsval]
    simp only [List.length_map, List.length_range']
    omega

/-- A small well-formed two-contour outline: three points at x = 0, 1, 2 (in
26.6 fixed point), contour endpoints 1 and 2, so the second contour starts at
point index 1 where the first one ended. -/
def twoContourOutline : FTOutline :=
  ⟨2, 3, fun i => ⟨64 * i, 0⟩, fun _ => 1, fun i => i + 1⟩

theorem twoContourOutline_eval :
    twoContourOutline.contoursProp =
      .ok [[contourEntry twoContourOutline 0, contourEntry twoContourOutline 1],
        [contourEntry twoContourOutline 1, contourEntry twoContourOutline 2]] := by
  have heps : (List.range twoContourOutline.n_contours).map twoContourOutline.contours
      = [1, 2] := by decide
  have h10 : walkContour twoContourOutline 1 0 =
      .ok ([contourEntry twoContourOutline 0, contourEntry twoContourOutline 1], 1) := by
    unfold walkContour
    norm_num [twoContourOutline]
    unfold walkContour
    norm_num [twoContourOutline]
  have h21 : walkContour twoContourOutline 2 1 =
      .ok ([contourEntry twoContourOutline 1, contourEntry twoContourOutline 2], 2) := by
    unfold walkContour
    norm_num [twoContourOutline]
    unfold walkContour
    norm_num [twoContourOutline]
  show contoursFrom twoContourOutline
      ((List.range twoContourOutline.n_contours).map twoContourOutline.contours) 0 = _
  rw [heps]
  simp only [contoursFrom]
  rw [h10]
  dsimp only
  rw [h21]

theorem contours_adjacent_overlap_witness :
    twoContourOutline.contoursProp =
      .ok [[contourEntry twoContourOutline 0, contourEntry twoContourOutline 1],
        [contourEntry twoContourOutline 1, contourEntry twoContourOutline 2]] ∧
    0 + 1 < twoContourOutline.n_contours ∧
    ([[contourEntry twoContourOutline 0, contourEntry twoContourOutline 1],
        [contourEntry twoContourOutline 1, contourEntry twoContourOutline 2]].length =
        twoContourOutline.n_contours ∧
      ([[contourEntry twoContourOutline 0, contourEntry twoContourOutline 1],
        [contourEntry twoContourOutline 1, contourEntry twoContourOutline 2]].getD (0 + 1)
        []).head? = some (contourEntry twoContourOutline (twoContourOutline.contours 0)) ∧
      ([[contourEntry twoContourOutline 0, contourEntry twoContourOutline 1],
        [contourEntry twoContourOutline 1, contourEntry twoContourOutline 2]].getD 0
        []).getLast? = some (contourEntry twoContourOutline (twoContourOutline.contours 0)) ∧
      ([[contourEntry twoContourOutline 0, contourEntry twoContourOutline 1],
        [contourEntry twoContourOutline 1, contourEntry twoContourOutline 2]].getD (0 + 1)
        []).length = twoContourOutline.contours (0 + 1) - twoContourOutline.contours 0 + 1) :=
  ⟨twoContourOutline_eval, by decide,
    contours_adjacent_overlap twoContourOutline _ 0 twoContourOutline_eval (by decide)⟩

/-- C10: every triple produced by the contours property carries dropout flags
equal to 0, because each tag is an unsigned byte and the flags are the tag
shifted right by 32 bits. -/
theorem dropout_flags_zero (o : FTOutline) (cs : List (List (Vector × ℕ × ℕ)))
    (htags : ∀ i, o.tags i < 256) (h : o.contoursProp = .ok cs) :
    ∀ c ∈ cs, ∀ x ∈ c, x.2.2 = 0 := by
  obtain ⟨hlen, hspec⟩ := contoursFrom_ok_spec o ((List.range o.n_contours).map o.contours) 0 cs h
  intro c hc x hx
  obtain ⟨j, hj, hcj⟩ := List.mem_iff_getElem.mp hc
  have hj2 : j < ((List.range o.n_contours).map o.contours).length := by omega
  have hcval := (hspec j hj2).2.2
  rw [List.getD_eq_getElem cs [] hj, hcj] at hcval
  rw [hcval] at hx
  obtain ⟨k, _, rfl⟩ := List.mem_map.mp hx
  have hb := htags k
  simp only [contourEntry]
  omega

theorem dropout_flags_zero_witness :
    (∀ i, twoContourOutline.tags i < 256) ∧
    (∀ c ∈ [[contourEntry twoContourOutline 0, contourEntry twoContourOutline 1],
        [contourEntry twoContourOutline 1, contourEntry twoContourOutline 2]],
      ∀ x ∈ c, x.2.2 = 0) :=
  ⟨fun _ => by norm_num [twoContourOutline],
    dropout_flags_zero twoContourOutline _ (fun _ => by norm_num [twoContourOutline])
      twoContourOutline_eval⟩

end PyFT
